import Mathlib

set_option linter.unusedVariables false

/-!
Shallow embedding of the bounded TTL-LRU cache from internal/cache/cache.go
of the cache-service repository.

Modelling conventions:
* Go time.Time and time.Duration are both modelled as Int (absolute instants
  and durations on one integer time line); time.Now().After(t) is now > t.
  Each operation receives the current instant now explicitly.
* The doubly linked recency list (head, tail, prev, next pointers) is a Lean
  list in head-to-tail order; addNode is cons at the front, the tail is
  getLast?, and removeNode unlinks a node, identified by its id, from the
  list.  On every state the Go code can reach, removeNode is only ever
  applied to a node that is currently linked in the list, where this filter
  formulation agrees with pointer splicing.
* Node identity: Go distinguishes nodes by pointer; the model gives every
  allocated node a fresh numeric id drawn from the nextId counter.
* The Go map field cache, of type map[string]*Node, is an association list
  List (String × Option Nat): a stored value none models a nil *Node pointer
  kept in the map, and some id models a pointer to the node carrying id.
  Go map assignment replaces the binding of the key; Go delete removes it.
* Go context.Context is a Bool (already cancelled or not) for Put, Get,
  Evict and EvictAll, whose code polls ctx.Err() once at entry.  GetAll also
  polls ctx.Done() once per loop iteration, so it receives an Option Nat:
  some j means the context becomes (and stays) cancelled at poll number j,
  where poll 0 is the entry check and poll i, for i bigger than 0, is the
  check made before visiting the i-th node of the traversal.
* A Go nil-pointer dereference (a runtime panic, not a returned error) is
  modelled by the distinguished outcome CacheErr.nilDeref.
-/

/-- Error values declared at the top of cache.go, together with ctxCancelled
for the error propagated from the caller context, and nilDeref, which stands
for a runtime nil-pointer panic rather than a returned error value. -/
inductive CacheErr where
  | ctxCancelled
  | errEmptyKey
  | errNegativeTTL
  | errKeyNotFound
  | errExpiredKey
  | errNilNode
  | errEmptyCache
  | nilDeref
deriving DecidableEq

/-- Node of cache.go: key, value, absolute expiry instant TTL.  The prev and
next pointers are represented by the position of the node inside the list
field of the cache; id is the model stand-in for pointer identity. -/
structure Node (α : Type) where
  id : Nat
  key : String
  value : α
  TTL : Int
deriving DecidableEq

/-- LRUCache of cache.go.  The head and tail pointers become the Lean list
(in head-to-tail order) and the map field cache becomes an association list
from keys to possibly-nil node pointers (ids).  nextId is the allocator for
node identities. -/
structure LRUCache (α : Type) where
  list : List (Node α)
  cache : List (String × Option Nat)
  nextId : Nat
  capacity : Int
  defaultTTL : Int
deriving DecidableEq

/-- Lookup in the Go map: the association list holds at most one binding per
key, and mapGet returns the first one. -/
def mapGet (k : String) : List (String × Option Nat) → Option (Option Nat)
  | [] => none
  | p :: rest => if p.1 = k then some p.2 else mapGet k rest

/-- Go delete(c.cache, k): removes the binding of k (all bindings of k; the
operations below never create duplicate keys). -/
def mapDel (k : String) (m : List (String × Option Nat)) : List (String × Option Nat) :=
  m.filter (fun p => decide (p.1 ≠ k))

/-- removeNode of cache.go, acting on a node currently linked in the list:
unlink the node with the given identity. -/
def removeNode {α : Type} (i : Nat) (l : List (Node α)) : List (Node α) :=
  l.filter (fun n => decide (n.id ≠ i))

/-- Dereference a node pointer: recover the node with the given identity
from the recency list. -/
def findNode {α : Type} (i : Nat) (l : List (Node α)) : Option (Node α) :=
  l.find? (fun n => n.id == i)

/-- NewLRUCache of cache.go: empty map, empty list, given capacity and
default TTL. -/
def NewLRUCache {α : Type} (capacity defaultTTL : Int) : LRUCache α :=
  ⟨[], [], 0, capacity, defaultTTL⟩

/-- getTTL of cache.go: a zero TTL means use the default. -/
def getTTL {α : Type} (c : LRUCache α) (ttl : Int) : Int :=
  if ttl = 0 then c.defaultTTL else ttl

/-- The insertion tail of Put (lines 123-129 of cache.go): allocate a node,
store it in the map (Go map assignment: replace any binding of the key) and
link it at the head of the list. -/
def insertNew {α : Type} (c : LRUCache α) (now : Int) (key : String) (value : α)
    (ttl : Int) : Except CacheErr Unit × LRUCache α :=
  (.ok (), { c with
    list := ⟨c.nextId, key, value, now + getTTL c ttl⟩ :: c.list,
    cache := (key, some c.nextId) :: mapDel key c.cache,
    nextId := c.nextId + 1 })

/-- Put of cache.go.  Checks, in order: context cancellation, empty key,
negative TTL; then either updates an existing entry in place and moves it to
the head, or inserts a new entry, evicting the current tail first when the
map already holds at least capacity keys. -/
def Put {α : Type} (c : LRUCache α) (cancelled : Bool) (now : Int) (key : String)
    (value : α) (ttl : Int) : Except CacheErr Unit × LRUCache α :=
  if cancelled then (.error .ctxCancelled, c)
  else if key = "" then (.error .errEmptyKey, c)
  else if ttl < 0 then (.error .errNegativeTTL, c)
  else
    match mapGet key c.cache with
    | some none => (.error .nilDeref, c)
    | some (some i) =>
      match findNode i c.list with
      | none => (.error .nilDeref, c)
      | some n =>
        (.ok (), { c with
          list := { n with value := value, TTL := now + getTTL c ttl } :: removeNode i c.list })
    | none =>
      if (c.cache.length : Int) ≥ c.capacity then
        match c.list.getLast? with
        | none => (.error .errNilNode, c)
        | some t =>
          insertNew { c with cache := mapDel t.key c.cache, list := removeNode t.id c.list }
            now key value ttl
      else insertNew c now key value ttl

/-- Get of cache.go.  On an expired key it deletes the key from the map but
does not unlink the node from the list.  The Go source also carries a test
node == nil after the expiry test; since the expiry test already
dereferences the node, that branch can only be reached with a non-nil node
and is dead code, which the model reflects by not producing errNilNode. -/
def Get {α : Type} (c : LRUCache α) (cancelled : Bool) (now : Int) (key : String) :
    Except CacheErr (α × Int) × LRUCache α :=
  if cancelled then (.error .ctxCancelled, c)
  else if key = "" then (.error .errEmptyKey, c)
  else
    match mapGet key c.cache with
    | none => (.error .errKeyNotFound, c)
    | some none => (.error .nilDeref, c)
    | some (some i) =>
      match findNode i c.list with
      | none => (.error .nilDeref, c)
      | some n =>
        if now > n.TTL then (.error .errExpiredKey, { c with cache := mapDel key c.cache })
        else (.ok (n.value, n.TTL), c)

/-- Evict of cache.go.  Unlike Get, the nil check here precedes every
dereference, so a nil pointer in the map would yield errNilNode. -/
def Evict {α : Type} (c : LRUCache α) (cancelled : Bool) (key : String) :
    Except CacheErr α × LRUCache α :=
  if cancelled then (.error .ctxCancelled, c)
  else if key = "" then (.error .errEmptyKey, c)
  else
    match mapGet key c.cache with
    | none => (.error .errKeyNotFound, c)
    | some none => (.error .errNilNode, c)
    | some (some i) =>
      match findNode i c.list with
      | none => (.error .nilDeref, c)
      | some n =>
        (.ok n.value, { c with cache := mapDel key c.cache, list := removeNode i c.list })

/-- EvictAll of cache.go: empty-cache error, or clear both structures. -/
def EvictAll {α : Type} (c : LRUCache α) (cancelled : Bool) :
    Except CacheErr Unit × LRUCache α :=
  if cancelled then (.error .ctxCancelled, c)
  else if c.cache.length = 0 then (.error .errEmptyCache, c)
  else (.ok (), { c with cache := [], list := [] })

/-- Whether the context is cancelled at poll number i (see the module
comment): some j means cancelled from poll j on. -/
def ctxDone (cancelAt : Option Nat) (i : Nat) : Bool :=
  match cancelAt with
  | none => false
  | some j => j ≤ i

/-- Traversal loop of GetAll (lines 178-193 of cache.go).  The first
argument list is the snapshot of the recency list taken at entry; the Go
loop follows saved next pointers, and since each iteration can unlink only
the node it is visiting, the sequence of visited nodes is exactly this
snapshot.  i counts polls of ctx.Done; ks and vs accumulate the results in
traversal order. -/
def GetAllLoop {α : Type} (cancelAt : Option Nat) (now : Int) :
    List (Node α) → Nat → LRUCache α → List String → List α →
    Except CacheErr (List String × List α) × LRUCache α
  | [], _, s, ks, vs => (.ok (ks, vs), s)
  | n :: rest, i, s, ks, vs =>
    if ctxDone cancelAt i then (.error .ctxCancelled, s)
    else if now > n.TTL then
      GetAllLoop cancelAt now rest (i + 1)
        { s with cache := mapDel n.key s.cache, list := removeNode n.id s.list } ks vs
    else GetAllLoop cancelAt now rest (i + 1) s (ks ++ [n.key]) (vs ++ [n.value])

/-- GetAll of cache.go: entry cancellation check, empty-cache check on the
map, then the traversal loop over the recency list. -/
def GetAll {α : Type} (c : LRUCache α) (cancelAt : Option Nat) (now : Int) :
    Except CacheErr (List String × List α) × LRUCache α :=
  if ctxDone cancelAt 0 then (.error .ctxCancelled, c)
  else if c.cache.length = 0 then (.error .errEmptyCache, c)
  else GetAllLoop cancelAt now c.list 1 c [] []

/-- Run a sequence of Put calls, each given as (now, key, value, ttl), with
a live (never cancelled) context, threading the cache state through. -/
def runPuts {α : Type} (c : LRUCache α) : List (Int × String × α × Int) → LRUCache α
  | [] => c
  | (now, k, v, t) :: rest => runPuts (Put c false now k v t).2 rest

instance {ε β : Type} [DecidableEq ε] [DecidableEq β] : DecidableEq (Except ε β) := fun x y =>
  match x, y with
  | .ok a, .ok b =>
    if h : a = b then isTrue (by rw [h]) else isFalse (fun he => h (by injection he))
  | .error a, .error b =>
    if h : a = b then isTrue (by rw [h]) else isFalse (fun he => h (by injection he))
  | .ok _, .error _ => isFalse (fun he => Except.noConfusion he)
  | .error _, .ok _ => isFalse (fun he => Except.noConfusion he)

/-- Structural invariant that holds in every reachable cache state, including
the desynchronised states produced by the expired-key path of Get: map keys
are distinct, every map binding is a non-nil pointer to a node that is
linked in the list and carries the bound key, node identities in the list
are distinct, and all identities were allocated below nextId. -/
def CacheInv {α : Type} (c : LRUCache α) : Prop :=
  (c.cache.map Prod.fst).Nodup ∧
  (∀ p ∈ c.cache, ∃ n ∈ c.list, p.2 = some n.id ∧ n.key = p.1) ∧
  (c.list.map Node.id).Nodup ∧
  (∀ n ∈ c.list, n.id < c.nextId)

/-- Full synchronisation of index and recency list: CacheInv plus distinct
list keys and the guarantee that every linked node is still indexed.  Under
CacheSync the map and the list hold exactly the same keys. -/
def CacheSync {α : Type} (c : LRUCache α) : Prop :=
  CacheInv c ∧ (c.list.map Node.key).Nodup ∧
  ∀ n ∈ c.list, n.key ∈ c.cache.map Prod.fst

instance {α : Type} (c : LRUCache α) : Decidable (CacheInv c) := by
  unfold CacheInv; infer_instance

instance {α : Type} (c : LRUCache α) : Decidable (CacheSync c) := by
  unfold CacheSync; infer_instance

/-- States reachable from a freshly constructed cache by any sequence of the
five operations with arbitrary arguments. -/
inductive CacheReachable {α : Type} : LRUCache α → Prop where
  | init (capacity defaultTTL : Int) : CacheReachable (NewLRUCache capacity defaultTTL)
  | put {c : LRUCache α} (cl : Bool) (now : Int) (k : String) (v : α) (t : Int)
      (h : CacheReachable c) : CacheReachable (Put c cl now k v t).2
  | get {c : LRUCache α} (cl : Bool) (now : Int) (k : String)
      (h : CacheReachable c) : CacheReachable (Get c cl now k).2
  | getAll {c : LRUCache α} (ca : Option Nat) (now : Int)
      (h : CacheReachable c) : CacheReachable (GetAll c ca now).2
  | evict {c : LRUCache α} (cl : Bool) (k : String)
      (h : CacheReachable c) : CacheReachable (Evict c cl k).2
  | evictAll {c : LRUCache α} (cl : Bool)
      (h : CacheReachable c) : CacheReachable (EvictAll c cl).2

/-- Representation invariant for runs made only of Put calls on distinct
fresh keys: ks is the sequence of keys stored so far, oldest first.  The
recency list then holds the capacity most recent keys, newest first, and the
map is, entry for entry, the index of that list. -/
def PutRep {α : Type} (ks : List String) (c : LRUCache α) : Prop :=
  0 < c.capacity ∧
  c.list.map Node.key = ks.reverse.take c.capacity.toNat ∧
  c.cache = c.list.map (fun n => (n.key, some n.id)) ∧
  (c.list.map Node.id).Nodup ∧
  (∀ n ∈ c.list, n.id < c.nextId)

/-- Witness trace for the capacity breach: capacity 2; store a with TTL 1 at
time 0, store b, let a expire and Get it at time 5 (index-only deletion),
then store c and d.  The Put of d evicts the zombie node of a from the list
without shrinking the index, and occupancy reaches 3. -/
def c1Trace : LRUCache Nat :=
  (Put (Put (Get (Put (Put (NewLRUCache 2 100) false 0 "a" 0 1).2
    false 0 "b" 1 100).2 false 5 "a").2 false 5 "c" 2 100).2 false 5 "d" 3 100).2

/-- Witness trace for the index-list desynchronisation: store a with TTL 1
at time 0, then Get it at time 5.  The expired-key path of Get removes a
from the index but leaves its node linked in the list. -/
def c2State : LRUCache Nat :=
  (Get (Put (NewLRUCache 2 100) false 0 "a" 0 1).2 false 5 "a").2

/-- Concrete scenario A of the specification: capacity 2, store a, b, c in
order with explicit TTL 100 at time 0. -/
def c3Scenario : LRUCache Nat :=
  runPuts (NewLRUCache 2 1000) [(0, "a", 1, 100), (0, "b", 2, 100), (0, "c", 3, 100)]

/-- A concrete cache with one live entry: key a, value 7, expiry instant 5
(stored at time 0 with TTL 5 on a fresh cache of capacity 2). -/
def oneEntryCache : LRUCache Nat := (Put (NewLRUCache 2 100) false 0 "a" 7 5).2

theorem mapGet_some_mem {k : String} {v : Option Nat} :
    ∀ {m : List (String × Option Nat)}, mapGet k m = some v → (k, v) ∈ m := by
  intro m
  induction m with
  | nil => intro h; simp [mapGet] at h
  | cons p rest ih =>
    intro h
    rw [mapGet] at h
    split at h
    · rename_i hp
      injection h with h2
      have hpkv : (k, v) = p := by rw [← hp, ← h2]
      rw [hpkv]
      exact List.mem_cons_self p rest
    · exact List.mem_cons_of_mem _ (ih h)

theorem mapGet_eq_none_iff {k : String} :
    ∀ {m : List (String × Option Nat)}, mapGet k m = none ↔ k ∉ m.map Prod.fst := by
  intro m
  induction m with
  | nil => simp [mapGet]
  | cons p rest ih =>
    rw [mapGet]
    by_cases hp : p.1 = k
    · simp [hp]
    · simp only [List.map_cons, List.mem_cons]
      rw [if_neg hp]
      rw [ih]
      constructor
      · intro hk hor
        rcases hor with h1 | h2
        · exact hp h1.symm
        · exact hk h2
      · intro hall hk
        exact hall (Or.inr hk)

theorem mapGet_mem_keys {k : String} {v : Option Nat} {m : List (String × Option Nat)}
    (h : mapGet k m = some v) : k ∈ m.map Prod.fst := by
  by_contra hk
  rw [← mapGet_eq_none_iff] at hk
  rw [h] at hk
  exact Option.noConfusion hk

theorem mem_mapDel {k : String} {p : String × Option Nat} {m : List (String × Option Nat)} :
    p ∈ mapDel k m ↔ p ∈ m ∧ p.1 ≠ k := by
  simp [mapDel, List.mem_filter]

theorem mapDel_sublist (k : String) (m : List (String × Option Nat)) :
    (mapDel k m).Sublist m :=
  List.filter_sublist m

theorem mem_keys_mapDel {k k' : String} {m : List (String × Option Nat)} :
    k' ∈ (mapDel k m).map Prod.fst ↔ k' ∈ m.map Prod.fst ∧ k' ≠ k := by
  constructor
  · intro h
    obtain ⟨p, hp, hfst⟩ := List.mem_map.1 h
    obtain ⟨hpm, hpk⟩ := mem_mapDel.1 hp
    exact ⟨List.mem_map.2 ⟨p, hpm, hfst⟩, hfst ▸ hpk⟩
  · intro ⟨h, hne⟩
    obtain ⟨p, hp, hfst⟩ := List.mem_map.1 h
    exact List.mem_map.2 ⟨p, mem_mapDel.2 ⟨hp, hfst ▸ hne⟩, hfst⟩

theorem mapGet_mapDel_self (k : String) (m : List (String × Option Nat)) :
    mapGet k (mapDel k m) = none := by
  rw [mapGet_eq_none_iff]
  intro h
  exact (mem_keys_mapDel.1 h).2 rfl

theorem mapGet_mapDel_ne {k k' : String} (hne : k' ≠ k) (m : List (String × Option Nat)) :
    mapGet k' (mapDel k m) = mapGet k' m := by
  induction m with
  | nil => rfl
  | cons p rest ih =>
    rw [mapDel, List.filter_cons]
    by_cases hp : p.1 = k
    · rw [if_neg (by simp [hp])]
      rw [mapGet, if_neg (by rw [hp]; exact fun h => hne h.symm)]
      exact ih
    · rw [if_pos (by simp [hp])]
      rw [mapGet, mapGet]
      by_cases hp' : p.1 = k'
      · rw [if_pos hp', if_pos hp']
      · rw [if_neg hp', if_neg hp']
        exact ih

theorem mapDel_eq_self {k : String} {m : List (String × Option Nat)}
    (h : k ∉ m.map Prod.fst) : mapDel k m = m := by
  rw [mapDel, List.filter_eq_self]
  intro p hp
  simp only [decide_eq_true_eq]
  intro hpk
  exact h (List.mem_map.2 ⟨p, hp, hpk⟩)

theorem length_mapDel_of_mem {k : String} {m : List (String × Option Nat)}
    (hnd : (m.map Prod.fst).Nodup) (hmem : k ∈ m.map Prod.fst) :
    (mapDel k m).length + 1 = m.length := by
  induction m with
  | nil => simp at hmem
  | cons p rest ih =>
    simp only [List.map_cons, List.nodup_cons] at hnd
    simp only [List.map_cons, List.mem_cons] at hmem
    rw [mapDel, List.filter_cons]
    by_cases hp : p.1 = k
    · rw [if_neg (by simp [hp])]
      have : mapDel k rest = rest := mapDel_eq_self (hp ▸ hnd.1)
      rw [mapDel] at this
      rw [this]
      simp
    · rw [if_pos (by simp [hp])]
      have hkrest : k ∈ rest.map Prod.fst := by
        rcases hmem with h1 | h2
        · exact absurd h1.symm hp
        · exact h2
      have := ih hnd.2 hkrest
      rw [mapDel] at this
      simp only [List.length_cons]
      omega

theorem mem_removeNode {α : Type} {i : Nat} {n : Node α} {l : List (Node α)} :
    n ∈ removeNode i l ↔ n ∈ l ∧ n.id ≠ i := by
  simp [removeNode, List.mem_filter]

theorem removeNode_sublist {α : Type} (i : Nat) (l : List (Node α)) :
    (removeNode i l).Sublist l :=
  List.filter_sublist l

theorem removeNode_eq_self {α : Type} {i : Nat} {l : List (Node α)}
    (h : ∀ n ∈ l, n.id ≠ i) : removeNode i l = l := by
  rw [removeNode, List.filter_eq_self]
  intro n hn
  simp only [decide_eq_true_eq]
  exact h n hn

theorem findNode_eq_some {α : Type} {i : Nat} {n : Node α} {l : List (Node α)}
    (h : findNode i l = some n) : n ∈ l ∧ n.id = i := by
  refine ⟨List.mem_of_find?_eq_some h, ?_⟩
  have := List.find?_some h
  simpa using this

theorem findNode_of_mem_nodup {α : Type} {n : Node α} {l : List (Node α)}
    (hnd : (l.map Node.id).Nodup) (hmem : n ∈ l) : findNode n.id l = some n := by
  induction l with
  | nil => simp at hmem
  | cons m rest ih =>
    simp only [List.map_cons, List.nodup_cons] at hnd
    rcases List.mem_cons.1 hmem with h1 | h2
    · rw [findNode, List.find?_cons_of_pos]
      · rw [h1]
      · simp [h1]
    · have hne : m.id ≠ n.id := by
        intro he
        exact hnd.1 (he ▸ List.mem_map.2 ⟨n, h2, rfl⟩)
      rw [findNode, List.find?_cons_of_neg]
      · exact ih hnd.2 h2
      · simp [hne]

theorem nodup_map_mem_inj {α β : Type} {f : α → β} {l : List α}
    (hnd : (l.map f).Nodup) {a b : α} (ha : a ∈ l) (hb : b ∈ l) (hf : f a = f b) :
    a = b := by
  induction l with
  | nil => simp at ha
  | cons x rest ih =>
    simp only [List.map_cons, List.nodup_cons] at hnd
    rcases List.mem_cons.1 ha with ha1 | ha2 <;> rcases List.mem_cons.1 hb with hb1 | hb2
    · rw [ha1, hb1]
    · have hx : f x ∈ List.map f rest := by
        rw [ha1] at hf
        rw [hf]
        exact List.mem_map.2 ⟨b, hb2, rfl⟩
      exact absurd hx hnd.1
    · have hx : f x ∈ List.map f rest := by
        rw [hb1] at hf
        rw [← hf]
        exact List.mem_map.2 ⟨a, ha2, rfl⟩
      exact absurd hx hnd.1
    · exact ih hnd.2 ha2 hb2

theorem getLast?_mem {α : Type} {l : List α} {t : α} (h : l.getLast? = some t) :
    t ∈ l := by
  have heq := List.dropLast_append_getLast? t (Option.mem_def.mpr h)
  rw [← heq]
  exact List.mem_append_right _ (List.mem_singleton_self t)

theorem inv_mapDelOnly {α : Type} {c : LRUCache α} (h : CacheInv c) (k : String) :
    CacheInv { c with cache := mapDel k c.cache } := by
  obtain ⟨h1, h2, h3, h4⟩ := h
  exact ⟨h1.sublist ((mapDel_sublist k c.cache).map Prod.fst),
    fun p hp => h2 p ((mapDel_sublist k c.cache).subset hp), h3, h4⟩

theorem inv_removePair {α : Type} {c : LRUCache α} {t : Node α}
    (h : CacheInv c) (ht : t ∈ c.list) :
    CacheInv { c with cache := mapDel t.key c.cache, list := removeNode t.id c.list } := by
  obtain ⟨h1, h2, h3, h4⟩ := h
  refine ⟨h1.sublist ((mapDel_sublist t.key c.cache).map Prod.fst), ?_,
    h3.sublist ((removeNode_sublist t.id c.list).map Node.id), ?_⟩
  · intro p hp
    obtain ⟨hpc, hpk⟩ := mem_mapDel.1 hp
    obtain ⟨m, hmE, hp2, hmk⟩ := h2 p hpc
    have hmi : m.id ≠ t.id := by
      intro he
      have hmt : m = t := nodup_map_mem_inj h3 hmE ht he
      exact hpk (by rw [← hmk, hmt])
    exact ⟨m, mem_removeNode.2 ⟨hmE, hmi⟩, hp2, hmk⟩
  · intro m hm
    exact h4 m (mem_removeNode.1 hm).1

theorem inv_insertNew {α : Type} {c : LRUCache α} (h : CacheInv c) (now : Int)
    (k : String) (v : α) (ttl : Int) : CacheInv (insertNew c now k v ttl).2 := by
  obtain ⟨h1, h2, h3, h4⟩ := h
  refine ⟨?_, ?_, ?_, ?_⟩
  · simp only [insertNew, List.map_cons, List.nodup_cons]
    refine ⟨?_, h1.sublist ((mapDel_sublist k c.cache).map Prod.fst)⟩
    intro hk
    exact (mem_keys_mapDel.1 hk).2 rfl
  · intro p hp
    simp only [insertNew, List.mem_cons] at hp
    rcases hp with rfl | hp
    · exact ⟨⟨c.nextId, k, v, now + getTTL c ttl⟩, List.mem_cons_self _ _, rfl, rfl⟩
    · obtain ⟨m, hmE, hp2, hpk⟩ := h2 p ((mapDel_sublist k c.cache).subset hp)
      exact ⟨m, List.mem_cons_of_mem _ hmE, hp2, hpk⟩
  · simp only [insertNew, List.map_cons, List.nodup_cons]
    refine ⟨?_, h3⟩
    intro hmem
    obtain ⟨m, hm, hid⟩ := List.mem_map.1 hmem
    exact absurd hid (Nat.ne_of_lt (h4 m hm))
  · intro m hm
    simp only [insertNew, List.mem_cons] at hm
    rcases hm with rfl | hm
    · exact Nat.lt_succ_self c.nextId
    · exact Nat.lt_succ_of_lt (h4 m hm)

theorem inv_update {α : Type} {c : LRUCache α} {i : Nat} {n : Node α}
    (h : CacheInv c) (hfind : findNode i c.list = some n) (v : α) (ttl' : Int) :
    CacheInv { c with list := { n with value := v, TTL := ttl' } :: removeNode i c.list } := by
  obtain ⟨h1, h2, h3, h4⟩ := h
  obtain ⟨hnE, hni⟩ := findNode_eq_some hfind
  refine ⟨h1, ?_, ?_, ?_⟩
  · intro p hp
    obtain ⟨m, hmE, hp2, hpk⟩ := h2 p hp
    by_cases hmi : m.id = i
    · have hmn : m = n := nodup_map_mem_inj h3 hmE hnE (by rw [hmi, hni])
      refine ⟨{ n with value := v, TTL := ttl' }, List.mem_cons_self _ _, ?_, ?_⟩
      · rw [hp2, hmn]
      · rw [← hmn]
        exact hpk
    · exact ⟨m, List.mem_cons_of_mem _ (mem_removeNode.2 ⟨hmE, hmi⟩), hp2, hpk⟩
  · simp only [List.map_cons, List.nodup_cons]
    refine ⟨?_, h3.sublist ((removeNode_sublist i c.list).map Node.id)⟩
    intro hmem
    obtain ⟨m, hm, hid⟩ := List.mem_map.1 hmem
    exact (mem_removeNode.1 hm).2 (by rw [hid]; exact hni)
  · intro m hm
    rcases List.mem_cons.1 hm with h1' | h2'
    · rw [h1']
      exact h4 n hnE
    · exact h4 m ((removeNode_sublist i c.list).subset h2')

theorem key_of_get_find {α : Type} {c : LRUCache α} {k : String} {i : Nat} {n : Node α}
    (h : CacheInv c) (hget : mapGet k c.cache = some (some i))
    (hfind : findNode i c.list = some n) : n.key = k := by
  obtain ⟨h1, h2, h3, h4⟩ := h
  obtain ⟨m, hmE, hp2, hmk⟩ := h2 (k, some i) (mapGet_some_mem hget)
  obtain ⟨hnE, hni⟩ := findNode_eq_some hfind
  injection hp2 with hp2
  have hnm : n = m := nodup_map_mem_inj h3 hnE hmE (by rw [hni, hp2])
  rw [hnm]
  exact hmk

theorem inv_lookup {α : Type} {c : LRUCache α} {k : String} {v : Option Nat}
    (h : CacheInv c) (hget : mapGet k c.cache = some v) :
    ∃ i n, v = some i ∧ findNode i c.list = some n ∧ n.key = k ∧ n ∈ c.list := by
  obtain ⟨h1, h2, h3, h4⟩ := h
  obtain ⟨m, hmE, hp2, hmk⟩ := h2 (k, v) (mapGet_some_mem hget)
  exact ⟨m.id, m, hp2, findNode_of_mem_nodup h3 hmE, hmk, hmE⟩

theorem inv_Put {α : Type} {c : LRUCache α} (h : CacheInv c) (cl : Bool) (now : Int)
    (k : String) (v : α) (t : Int) : CacheInv (Put c cl now k v t).2 := by
  unfold Put
  split
  · exact h
  split
  · exact h
  split
  · exact h
  split
  · exact h
  · rename_i i hget
    split
    · exact h
    · rename_i n hfind
      exact inv_update h hfind v _
  · rename_i hget
    split
    · split
      · exact h
      · rename_i t0 hlast
        exact inv_insertNew (inv_removePair h (getLast?_mem hlast)) now k v t
    · exact inv_insertNew h now k v t

theorem inv_Get {α : Type} {c : LRUCache α} (h : CacheInv c) (cl : Bool) (now : Int)
    (k : String) : CacheInv (Get c cl now k).2 := by
  unfold Get
  repeat' split
  all_goals first | exact inv_mapDelOnly h k | exact h

theorem inv_Evict {α : Type} {c : LRUCache α} (h : CacheInv c) (cl : Bool) (k : String) :
    CacheInv (Evict c cl k).2 := by
  unfold Evict
  split
  · exact h
  split
  · exact h
  split
  · exact h
  · exact h
  · rename_i i hget
    split
    · exact h
    · rename_i n hfind
      have hkey : n.key = k := key_of_get_find h hget hfind
      have hid : n.id = i := (findNode_eq_some hfind).2
      have hmem : n ∈ c.list := (findNode_eq_some hfind).1
      rw [← hkey, ← hid]
      exact inv_removePair h hmem

theorem inv_EvictAll {α : Type} {c : LRUCache α} (h : CacheInv c) (cl : Bool) :
    CacheInv (EvictAll c cl).2 := by
  unfold EvictAll
  split
  · exact h
  split
  · exact h
  · exact ⟨List.nodup_nil, fun p hp => absurd hp (List.not_mem_nil p),
      List.nodup_nil, fun n hn => absurd hn (List.not_mem_nil n)⟩

theorem inv_GetAllLoop {α : Type} (ca : Option Nat) (now : Int) :
    ∀ (rem : List (Node α)) (i : Nat) (s : LRUCache α) (ks : List String) (vs : List α),
      CacheInv s → (∀ m ∈ rem, m ∈ s.list) → (rem.map Node.id).Nodup →
      CacheInv (GetAllLoop ca now rem i s ks vs).2 := by
  intro rem
  induction rem with
  | nil =>
    intro i s ks vs hs _ _
    exact hs
  | cons n rest ih =>
    intro i s ks vs hs hmem hnd
    simp only [List.map_cons, List.nodup_cons] at hnd
    rw [GetAllLoop]
    split
    · exact hs
    split
    · apply ih
      · exact inv_removePair hs (hmem n (List.mem_cons_self n rest))
      · intro m hm
        have hmS : m ∈ s.list := hmem m (List.mem_cons_of_mem _ hm)
        have hmid : m.id ≠ n.id := by
          intro he
          exact hnd.1 (List.mem_map.2 ⟨m, hm, he⟩)
        exact mem_removeNode.2 ⟨hmS, hmid⟩
      · exact hnd.2
    · apply ih
      · exact hs
      · intro m hm
        exact hmem m (List.mem_cons_of_mem _ hm)
      · exact hnd.2

theorem inv_GetAll {α : Type} {c : LRUCache α} (h : CacheInv c) (ca : Option Nat)
    (now : Int) : CacheInv (GetAll c ca now).2 := by
  unfold GetAll
  split
  · exact h
  split
  · exact h
  · exact inv_GetAllLoop ca now c.list 1 c [] [] h (fun m hm => hm) h.2.2.1

theorem reachable_inv {α : Type} {c : LRUCache α} (h : CacheReachable c) : CacheInv c := by
  induction h with
  | init cap dttl =>
    exact ⟨List.nodup_nil, fun p hp => absurd hp (List.not_mem_nil p),
      List.nodup_nil, fun n hn => absurd hn (List.not_mem_nil n)⟩
  | put cl now k v t h ih => exact inv_Put ih cl now k v t
  | get cl now k h ih => exact inv_Get ih cl now k
  | getAll ca now h ih => exact inv_GetAll ih ca now
  | evict cl k h ih => exact inv_Evict ih cl k
  | evictAll cl h ih => exact inv_EvictAll ih cl

theorem mapGet_mapDel_none {k t : String} {m : List (String × Option Nat)}
    (h : mapGet k m = none) : mapGet k (mapDel t m) = none := by
  by_cases hkt : k = t
  · rw [hkt]
    exact mapGet_mapDel_self t m
  · rw [mapGet_mapDel_ne hkt]
    exact h

theorem sync_removePair {α : Type} {c : LRUCache α} {t : Node α}
    (h : CacheSync c) (ht : t ∈ c.list) :
    CacheSync { c with cache := mapDel t.key c.cache, list := removeNode t.id c.list } := by
  obtain ⟨hinv, hknd, hmem⟩ := h
  refine ⟨inv_removePair hinv ht, hknd.sublist ((removeNode_sublist t.id c.list).map Node.key), ?_⟩
  intro n hn
  obtain ⟨hnE, hni⟩ := mem_removeNode.1 hn
  have hne : n.key ≠ t.key := by
    intro he
    exact hni (congrArg Node.id (nodup_map_mem_inj hknd hnE ht he))
  exact mem_keys_mapDel.2 ⟨hmem n hnE, hne⟩

theorem sync_insertNew {α : Type} {c : LRUCache α} {k : String}
    (h : CacheSync c) (hget : mapGet k c.cache = none) (now : Int) (v : α) (ttl : Int) :
    CacheSync (insertNew c now k v ttl).2 := by
  obtain ⟨hinv, hknd, hmem⟩ := h
  have hkc : k ∉ c.cache.map Prod.fst := mapGet_eq_none_iff.1 hget
  have hkl : k ∉ c.list.map Node.key := fun hx => by
    obtain ⟨n, hn, hkey⟩ := List.mem_map.1 hx
    exact hkc (hkey ▸ hmem n hn)
  refine ⟨inv_insertNew hinv now k v ttl, ?_, ?_⟩
  · simp only [insertNew, List.map_cons, List.nodup_cons]
    exact ⟨hkl, hknd⟩
  · intro n hn
    simp only [insertNew, List.mem_cons] at hn ⊢
    simp only [List.map_cons, List.mem_cons]
    rcases hn with rfl | hn
    · exact Or.inl rfl
    · have hne : n.key ≠ k := fun he => hkl (he ▸ List.mem_map.2 ⟨n, hn, rfl⟩)
      exact Or.inr (mem_keys_mapDel.2 ⟨hmem n hn, hne⟩)

theorem sync_update {α : Type} {c : LRUCache α} {k : String} {i : Nat} {n : Node α}
    (h : CacheSync c) (hget : mapGet k c.cache = some (some i))
    (hfind : findNode i c.list = some n) (v : α) (ttl' : Int) :
    CacheSync { c with list := { n with value := v, TTL := ttl' } :: removeNode i c.list } := by
  obtain ⟨hinv, hknd, hmem⟩ := h
  obtain ⟨hnE, hni⟩ := findNode_eq_some hfind
  have hkey : n.key = k := key_of_get_find hinv hget hfind
  refine ⟨inv_update hinv hfind v ttl', ?_, ?_⟩
  · simp only [List.map_cons, List.nodup_cons]
    refine ⟨?_, hknd.sublist ((removeNode_sublist i c.list).map Node.key)⟩
    intro hx
    obtain ⟨m, hm, hmk⟩ := List.mem_map.1 hx
    obtain ⟨hmE, hmi⟩ := mem_removeNode.1 hm
    exact hmi (hni ▸ congrArg Node.id (nodup_map_mem_inj hknd hmE hnE hmk))
  · intro m hm
    rcases List.mem_cons.1 hm with h1' | h2'
    · rw [h1']
      show n.key ∈ c.cache.map Prod.fst
      rw [hkey]
      exact mapGet_mem_keys hget
    · exact hmem m ((removeNode_sublist i c.list).subset h2')

theorem sync_Put {α : Type} {c : LRUCache α} (h : CacheSync c) (cl : Bool) (now : Int)
    (k : String) (v : α) (t : Int) : CacheSync (Put c cl now k v t).2 := by
  unfold Put
  split
  · exact h
  split
  · exact h
  split
  · exact h
  split
  · exact h
  · rename_i i hget
    split
    · exact h
    · rename_i n hfind
      exact sync_update h hget hfind v _
  · rename_i hget
    split
    · split
      · exact h
      · rename_i t0 hlast
        exact sync_insertNew (sync_removePair h (getLast?_mem hlast))
          (mapGet_mapDel_none hget) now v t
    · exact sync_insertNew h hget now v t

theorem sync_GetAllLoop {α : Type} (ca : Option Nat) (now : Int) :
    ∀ (rem : List (Node α)) (i : Nat) (s : LRUCache α) (ks : List String) (vs : List α),
      CacheSync s → (∀ m ∈ rem, m ∈ s.list) → (rem.map Node.id).Nodup →
      CacheSync (GetAllLoop ca now rem i s ks vs).2 := by
  intro rem
  induction rem with
  | nil =>
    intro i s ks vs hs _ _
    exact hs
  | cons n rest ih =>
    intro i s ks vs hs hmem hnd
    simp only [List.map_cons, List.nodup_cons] at hnd
    rw [GetAllLoop]
    split
    · exact hs
    split
    · apply ih
      · exact sync_removePair hs (hmem n (List.mem_cons_self n rest))
      · intro m hm
        have hmS : m ∈ s.list := hmem m (List.mem_cons_of_mem _ hm)
        have hmid : m.id ≠ n.id := by
          intro he
          exact hnd.1 (List.mem_map.2 ⟨m, hm, he⟩)
        exact mem_removeNode.2 ⟨hmS, hmid⟩
      · exact hnd.2
    · apply ih
      · exact hs
      · intro m hm
        exact hmem m (List.mem_cons_of_mem _ hm)
      · exact hnd.2

theorem sync_GetAll {α : Type} {c : LRUCache α} (h : CacheSync c) (ca : Option Nat)
    (now : Int) : CacheSync (GetAll c ca now).2 := by
  unfold GetAll
  split
  · exact h
  split
  · exact h
  · exact sync_GetAllLoop ca now c.list 1 c [] [] h (fun m hm => hm) h.1.2.2.1

theorem sync_Evict {α : Type} {c : LRUCache α} (h : CacheSync c) (cl : Bool) (k : String) :
    CacheSync (Evict c cl k).2 := by
  unfold Evict
  split
  · exact h
  split
  · exact h
  split
  · exact h
  · exact h
  · rename_i i hget
    split
    · exact h
    · rename_i n hfind
      have hkey : n.key = k := key_of_get_find h.1 hget hfind
      have hid : n.id = i := (findNode_eq_some hfind).2
      have hmem : n ∈ c.list := (findNode_eq_some hfind).1
      rw [← hkey, ← hid]
      exact sync_removePair h hmem

theorem sync_EvictAll {α : Type} {c : LRUCache α} (h : CacheSync c) (cl : Bool) :
    CacheSync (EvictAll c cl).2 := by
  unfold EvictAll
  split
  · exact h
  split
  · exact h
  · exact ⟨⟨List.nodup_nil, fun p hp => absurd hp (List.not_mem_nil p),
      List.nodup_nil, fun n hn => absurd hn (List.not_mem_nil n)⟩,
      List.nodup_nil, fun n hn => absurd hn (List.not_mem_nil n)⟩

theorem sync_length {α : Type} {c : LRUCache α} (h : CacheSync c) :
    c.cache.length = c.list.length := by
  obtain ⟨⟨h1, h2, h3, h4⟩, hknd, hmem⟩ := h
  have hperm : (c.cache.map Prod.fst).Perm (c.list.map Node.key) := by
    rw [List.perm_ext_iff_of_nodup h1 hknd]
    intro x
    constructor
    · intro hx
      obtain ⟨p, hp, hfst⟩ := List.mem_map.1 hx
      obtain ⟨n, hnE, hp2, hnk⟩ := h2 p hp
      exact List.mem_map.2 ⟨n, hnE, by rw [hnk, hfst]⟩
    · intro hx
      obtain ⟨n, hn, hkey⟩ := List.mem_map.1 hx
      exact hkey ▸ hmem n hn
  have := hperm.length_eq
  simpa using this

theorem get_state_cases {α : Type} {c : LRUCache α} (h : CacheSync c) (cl : Bool)
    (now : Int) (k : String) :
    (Get c cl now k).2 = c ∨
      ((Get c cl now k).2.list = c.list ∧
        (Get c cl now k).2.cache.length + 1 = c.cache.length) := by
  unfold Get
  split
  · exact Or.inl rfl
  split
  · exact Or.inl rfl
  split
  · exact Or.inl rfl
  · exact Or.inl rfl
  · rename_i i hget
    split
    · exact Or.inl rfl
    · rename_i n hfind
      split
      · refine Or.inr ⟨rfl, ?_⟩
        exact length_mapDel_of_mem h.1.1 (mapGet_mem_keys hget)
      · exact Or.inl rfl

theorem error_ne {α : Type} {e1 e2 : CacheErr} (hne : e1 ≠ e2) :
    (Except.error e1 : Except CacheErr α) ≠ Except.error e2 := by
  intro he
  injection he with he2
  exact hne he2

theorem ok_ne_error {β : Type} (x : β) (e : CacheErr) :
    (Except.ok x : Except CacheErr β) ≠ Except.error e := by
  intro he
  exact Except.noConfusion he

theorem get_list_unchanged {α : Type} (c : LRUCache α) (cl : Bool) (now : Int) (k : String) :
    (Get c cl now k).2.list = c.list := by
  unfold Get
  repeat' split
  all_goals rfl

theorem capacity_Put {α : Type} (c : LRUCache α) (cl : Bool) (now : Int) (k : String)
    (v : α) (t : Int) : (Put c cl now k v t).2.capacity = c.capacity := by
  unfold Put insertNew
  repeat' split
  all_goals rfl

theorem capacity_Get {α : Type} (c : LRUCache α) (cl : Bool) (now : Int) (k : String) :
    (Get c cl now k).2.capacity = c.capacity := by
  unfold Get
  repeat' split
  all_goals rfl

theorem capacity_Evict {α : Type} (c : LRUCache α) (cl : Bool) (k : String) :
    (Evict c cl k).2.capacity = c.capacity := by
  unfold Evict
  repeat' split
  all_goals rfl

theorem capacity_EvictAll {α : Type} (c : LRUCache α) (cl : Bool) :
    (EvictAll c cl).2.capacity = c.capacity := by
  unfold EvictAll
  repeat' split
  all_goals rfl

theorem capacity_GetAllLoop {α : Type} (ca : Option Nat) (now : Int) :
    ∀ (rem : List (Node α)) (i : Nat) (s : LRUCache α) (ks : List String) (vs : List α),
      (GetAllLoop ca now rem i s ks vs).2.capacity = s.capacity := by
  intro rem
  induction rem with
  | nil => intro i s ks vs; rfl
  | cons n rest ih =>
    intro i s ks vs
    rw [GetAllLoop]
    split
    · rfl
    split
    · rw [ih]
    · rw [ih]

theorem capacity_GetAll {α : Type} (c : LRUCache α) (ca : Option Nat) (now : Int) :
    (GetAll c ca now).2.capacity = c.capacity := by
  unfold GetAll
  split
  · rfl
  split
  · rfl
  · exact capacity_GetAllLoop ca now c.list 1 c [] []

theorem put_state_nonpos {α : Type} {c : LRUCache α} (hc : c.cache = []) (hl : c.list = [])
    (hcap : c.capacity ≤ 0) (cl : Bool) (now : Int) (k : String) (v : α) (ttl : Int) :
    (Put c cl now k v ttl).2 = c := by
  unfold Put
  split
  · rfl
  split
  · rfl
  split
  · rfl
  · split
    · rfl
    · rename_i i hget
      rw [hc] at hget
      exact absurd hget (by simp [mapGet])
    · rw [if_pos (by rw [hc]; simp; omega)]
      rw [hl]
      rfl

theorem get_state_of_empty {α : Type} {c : LRUCache α} (hc : c.cache = [])
    (cl : Bool) (now : Int) (k : String) : (Get c cl now k).2 = c := by
  unfold Get
  split
  · rfl
  split
  · rfl
  · split
    · rfl
    · rfl
    · rename_i i hget
      rw [hc] at hget
      exact absurd hget (by simp [mapGet])

theorem getAll_state_of_empty {α : Type} {c : LRUCache α} (hc : c.cache = [])
    (ca : Option Nat) (now : Int) : (GetAll c ca now).2 = c := by
  unfold GetAll
  split
  · rfl
  split
  · rfl
  · rename_i hlen
    rw [hc] at hlen
    simp at hlen

theorem evict_state_of_empty {α : Type} {c : LRUCache α} (hc : c.cache = [])
    (cl : Bool) (k : String) : (Evict c cl k).2 = c := by
  unfold Evict
  split
  · rfl
  split
  · rfl
  · split
    · rfl
    · rfl
    · rename_i i hget
      rw [hc] at hget
      exact absurd hget (by simp [mapGet])

theorem evictAll_state_of_empty {α : Type} {c : LRUCache α} (hc : c.cache = [])
    (cl : Bool) : (EvictAll c cl).2 = c := by
  unfold EvictAll
  split
  · rfl
  split
  · rfl
  · rename_i hlen
    rw [hc] at hlen
    simp at hlen

theorem reach_nonpos_empty {α : Type} {c : LRUCache α} (h : CacheReachable c)
    (hcap : c.capacity ≤ 0) : c.cache = [] ∧ c.list = [] := by
  induction h with
  | init cap dttl => exact ⟨rfl, rfl⟩
  | put cl now k v t h ih =>
    rename_i c0
    have hc0 : c0.capacity ≤ 0 := by rw [← capacity_Put c0 cl now k v t]; exact hcap
    obtain ⟨hc, hl⟩ := ih hc0
    rw [put_state_nonpos hc hl hc0 cl now k v t]
    exact ⟨hc, hl⟩
  | get cl now k h ih =>
    rename_i c0
    have hc0 : c0.capacity ≤ 0 := by rw [← capacity_Get c0 cl now k]; exact hcap
    obtain ⟨hc, hl⟩ := ih hc0
    rw [get_state_of_empty hc cl now k]
    exact ⟨hc, hl⟩
  | getAll ca now h ih =>
    rename_i c0
    have hc0 : c0.capacity ≤ 0 := by rw [← capacity_GetAll c0 ca now]; exact hcap
    obtain ⟨hc, hl⟩ := ih hc0
    rw [getAll_state_of_empty hc ca now]
    exact ⟨hc, hl⟩
  | evict cl k h ih =>
    rename_i c0
    have hc0 : c0.capacity ≤ 0 := by rw [← capacity_Evict c0 cl k]; exact hcap
    obtain ⟨hc, hl⟩ := ih hc0
    rw [evict_state_of_empty hc cl k]
    exact ⟨hc, hl⟩
  | evictAll cl h ih =>
    rename_i c0
    have hc0 : c0.capacity ≤ 0 := by rw [← capacity_EvictAll c0 cl]; exact hcap
    obtain ⟨hc, hl⟩ := ih hc0
    rw [evictAll_state_of_empty hc cl]
    exact ⟨hc, hl⟩

theorem put_nonpos_result {α : Type} {c : LRUCache α} (hc : c.cache = []) (hl : c.list = [])
    (hcap : c.capacity ≤ 0) (now : Int) (k : String) (v : α) (ttl : Int)
    (hk : k ≠ "") (ht : 0 ≤ ttl) :
    Put c false now k v ttl = (.error .errNilNode, c) := by
  unfold Put
  rw [if_neg (by simp)]
  rw [if_neg hk]
  rw [if_neg (by omega)]
  have hget : mapGet k c.cache = none := by rw [hc]; rfl
  rw [hget]
  rw [if_pos (by rw [hc]; simp; omega)]
  rw [hl]
  rfl

theorem getAllLoop_cancelled {α : Type} (now : Int) (j : Nat) :
    ∀ (rem : List (Node α)) (i : Nat) (s : LRUCache α) (ks : List String) (vs : List α),
      i ≤ j → j < i + rem.length →
      (GetAllLoop (some j) now rem i s ks vs).1 = .error .ctxCancelled := by
  intro rem
  induction rem with
  | nil =>
    intro i s ks vs h1 h2
    simp at h2
    omega
  | cons n rest ih =>
    intro i s ks vs h1 h2
    rw [GetAllLoop]
    by_cases hj : j ≤ i
    · rw [if_pos (by simp [ctxDone]; omega)]
    · rw [if_neg (by simp [ctxDone]; omega)]
      simp only [List.length_cons] at h2
      split
      · apply ih
        · omega
        · omega
      · apply ih
        · omega
        · omega

theorem removeNode_last {α : Type} {l : List (Node α)} {t : Node α}
    (hlast : l.getLast? = some t) (hnd : (l.map Node.id).Nodup) :
    removeNode t.id l = l.dropLast := by
  have heq : l.dropLast ++ [t] = l := List.dropLast_append_getLast? t (Option.mem_def.mpr hlast)
  have hnd2 : ((l.dropLast ++ [t]).map Node.id).Nodup := by rw [heq]; exact hnd
  rw [List.map_append, List.nodup_append] at hnd2
  conv_lhs => rw [← heq]
  rw [removeNode, List.filter_append]
  have h1 : List.filter (fun n => decide (n.id ≠ t.id)) l.dropLast = l.dropLast := by
    rw [List.filter_eq_self]
    intro n hn
    simp only [decide_eq_true_eq]
    intro he
    exact hnd2.2.2 (List.mem_map.2 ⟨n, hn, he⟩) (by simp)
  rw [h1]
  simp [List.filter]

theorem keys_of_cache_rep {α : Type} {c : LRUCache α}
    (hcache : c.cache = c.list.map (fun n => (n.key, some n.id))) :
    c.cache.map Prod.fst = c.list.map Node.key := by
  rw [hcache, List.map_map]
  rfl

theorem insertNew_rep {α : Type} {c : LRUCache α} {k : String}
    (hknl : k ∉ c.list.map Node.key)
    (hcache : c.cache = c.list.map (fun n => (n.key, some n.id)))
    (hids : (c.list.map Node.id).Nodup) (hlt : ∀ n ∈ c.list, n.id < c.nextId)
    (now : Int) (v : α) (ttl : Int) :
    (insertNew c now k v ttl).2.list.map Node.key = k :: c.list.map Node.key ∧
    (insertNew c now k v ttl).2.cache =
      (insertNew c now k v ttl).2.list.map (fun n => (n.key, some n.id)) ∧
    ((insertNew c now k v ttl).2.list.map Node.id).Nodup ∧
    (∀ n ∈ (insertNew c now k v ttl).2.list, n.id < (insertNew c now k v ttl).2.nextId) ∧
    (insertNew c now k v ttl).2.capacity = c.capacity := by
  refine ⟨rfl, ?_, ?_, ?_, rfl⟩
  · show (k, some c.nextId) :: mapDel k c.cache = _
    have hdel : mapDel k c.cache = c.cache := by
      apply mapDel_eq_self
      rw [keys_of_cache_rep hcache]
      exact hknl
    rw [hdel, hcache]
    rfl
  · simp only [insertNew, List.map_cons, List.nodup_cons]
    refine ⟨?_, hids⟩
    intro hmem
    obtain ⟨m, hm, hid⟩ := List.mem_map.1 hmem
    exact absurd hid (Nat.ne_of_lt (hlt m hm))
  · intro n hn
    simp only [insertNew, List.mem_cons] at hn
    rcases hn with rfl | hn
    · exact Nat.lt_succ_self c.nextId
    · exact Nat.lt_succ_of_lt (hlt n hn)

theorem take_reverse_snoc_over {ks : List String} {k : String} {N : Nat}
    (hN : 0 < N) (hlen : N ≤ ks.length) :
    ((ks ++ [k]).reverse).take N = k :: ((ks.reverse.take N).dropLast) := by
  rw [List.reverse_append]
  simp only [List.reverse_cons, List.reverse_nil, List.nil_append, List.singleton_append]
  obtain ⟨m, rfl⟩ : ∃ m, N = m + 1 := ⟨N - 1, by omega⟩
  rw [List.take_succ_cons]
  congr 1
  rw [List.dropLast_eq_take, List.length_take, List.length_reverse]
  have hmin : min (m + 1) ks.length = m + 1 := by omega
  rw [hmin]
  rw [List.take_take]
  have hmin2 : min (m + 1 - 1) (m + 1) = m := by omega
  rw [hmin2]

theorem take_reverse_snoc_under {ks : List String} {k : String} {N : Nat}
    (hlen : ks.length < N) :
    ((ks ++ [k]).reverse).take N = k :: ks.reverse := by
  rw [List.reverse_append]
  simp only [List.reverse_cons, List.reverse_nil, List.nil_append, List.singleton_append]
  apply List.take_of_length_le
  simp only [List.length_cons, List.length_reverse]
  omega

theorem putRep_step {α : Type} {ks : List String} {c : LRUCache α} (h : PutRep ks c)
    (hksnd : ks.Nodup) (now : Int) {k : String} (hk : k ≠ "") (hknew : k ∉ ks)
    (v : α) {ttl : Int} (ht : 0 ≤ ttl) :
    PutRep (ks ++ [k]) (Put c false now k v ttl).2 := by
  obtain ⟨hcap, hkeys, hcache, hids, hlt⟩ := h
  have hN0 : 0 < c.capacity.toNat := by omega
  have hRsub : ∀ x ∈ c.list.map Node.key, x ∈ ks := by
    intro x hx
    rw [hkeys] at hx
    exact List.mem_reverse.1 ((List.take_sublist _ _).subset hx)
  have hknl : k ∉ c.list.map Node.key := fun hx => hknew (hRsub k hx)
  have hkabs : mapGet k c.cache = none := by
    rw [mapGet_eq_none_iff, keys_of_cache_rep hcache]
    exact hknl
  have hlen : c.cache.length = min c.capacity.toNat ks.length := by
    have h1 : c.cache.length = c.list.length := by rw [hcache, List.length_map]
    have h2 : c.list.length = (c.list.map Node.key).length := (List.length_map _ _).symm
    rw [h1, h2, hkeys, List.length_take, List.length_reverse]
  have hknd : (c.list.map Node.key).Nodup := by
    rw [hkeys]
    exact (List.nodup_reverse.2 hksnd).sublist (List.take_sublist _ _)
  unfold Put
  rw [if_neg (by simp), if_neg hk, if_neg (by omega), hkabs]
  by_cases hover : (c.cache.length : Int) ≥ c.capacity
  · rw [if_pos hover]
    have hkslen : c.capacity.toNat ≤ ks.length := by
      rw [hlen] at hover
      omega
    have hlne : c.list ≠ [] := by
      intro he
      have hlen0 : (c.list.map Node.key).length = 0 := by rw [he]; rfl
      rw [hkeys, List.length_take, List.length_reverse] at hlen0
      omega
    obtain ⟨t, hlast⟩ : ∃ t, c.list.getLast? = some t := by
      cases hl : c.list.getLast? with
      | none => exact absurd (List.getLast?_eq_none_iff.1 hl) hlne
      | some t => exact ⟨t, rfl⟩
    rw [hlast]
    have hrem : removeNode t.id c.list = c.list.dropLast := removeNode_last hlast hids
    have heq : c.list.dropLast ++ [t] = c.list :=
      List.dropLast_append_getLast? t (Option.mem_def.mpr hlast)
    have hkdisj : ∀ n ∈ c.list.dropLast, n.key ≠ t.key := by
      have hnd2 : ((c.list.dropLast ++ [t]).map Node.key).Nodup := by rw [heq]; exact hknd
      rw [List.map_append, List.nodup_append] at hnd2
      intro n hn he
      exact hnd2.2.2 (List.mem_map.2 ⟨n, hn, he⟩) (by simp)
    have hdel : mapDel t.key c.cache = c.list.dropLast.map (fun n => (n.key, some n.id)) := by
      rw [hcache]
      conv_lhs => rw [← heq]
      rw [List.map_append, mapDel, List.filter_append]
      have h1 : List.filter (fun p => decide (p.1 ≠ t.key))
          (c.list.dropLast.map (fun n => (n.key, some n.id))) =
          c.list.dropLast.map (fun n => (n.key, some n.id)) := by
        rw [List.filter_eq_self]
        intro p hp
        obtain ⟨n, hn, rfl⟩ := List.mem_map.1 hp
        simp only [decide_eq_true_eq]
        exact hkdisj n hn
      rw [h1]
      simp [List.filter]
    have hdropkeys : (c.list.dropLast).map Node.key = (c.list.map Node.key).dropLast :=
      List.map_dropLast Node.key c.list
    have hrep := insertNew_rep
      (c := { c with cache := mapDel t.key c.cache, list := removeNode t.id c.list }) (k := k)
      (by
        show k ∉ (removeNode t.id c.list).map Node.key
        rw [hrem]
        intro hx
        obtain ⟨n, hn, hkn⟩ := List.mem_map.1 hx
        exact hknl (List.mem_map.2 ⟨n, (List.dropLast_sublist _).subset hn, hkn⟩))
      (by
        show mapDel t.key c.cache = (removeNode t.id c.list).map (fun n => (n.key, some n.id))
        rw [hrem, hdel])
      (by
        show ((removeNode t.id c.list).map Node.id).Nodup
        rw [hrem, List.map_dropLast]
        exact hids.sublist (List.dropLast_sublist _))
      (by
        intro n hn
        show n.id < c.nextId
        have hn2 : n ∈ removeNode t.id c.list := hn
        rw [hrem] at hn2
        exact hlt n ((List.dropLast_sublist _).subset hn2))
      now v ttl
    obtain ⟨r1, r2, r3, r4, r5⟩ := hrep
    refine ⟨by rw [r5]; exact hcap, ?_, r2, r3, r4⟩
    rw [r1]
    show k :: (removeNode t.id c.list).map Node.key =
      ((ks ++ [k]).reverse).take c.capacity.toNat
    rw [hrem, List.map_dropLast, hkeys]
    exact (take_reverse_snoc_over hN0 hkslen).symm
  · rw [if_neg hover]
    have hkslt : ks.length < c.capacity.toNat := by
      rw [hlen] at hover
      omega
    have hrep := insertNew_rep (c := c) (k := k) hknl hcache hids hlt now v ttl
    obtain ⟨r1, r2, r3, r4, r5⟩ := hrep
    refine ⟨by rw [r5]; exact hcap, ?_, r2, r3, r4⟩
    rw [r1]
    show k :: c.list.map Node.key = ((ks ++ [k]).reverse).take c.capacity.toNat
    have htake : ks.reverse.take c.capacity.toNat = ks.reverse :=
      List.take_of_length_le (by rw [List.length_reverse]; omega)
    rw [hkeys, htake]
    exact (take_reverse_snoc_under hkslt).symm

theorem putRep_run {α : Type} :
    ∀ (ops : List (Int × String × α × Int)) (ks : List String) (c : LRUCache α),
      PutRep ks c → (ks ++ ops.map (fun o => o.2.1)).Nodup →
      (∀ o ∈ ops, o.2.1 ≠ "" ∧ 0 ≤ o.2.2.2) →
      PutRep (ks ++ ops.map (fun o => o.2.1)) (runPuts c ops) := by
  intro ops
  induction ops with
  | nil =>
    intro ks c h hnd hops
    simpa using h
  | cons o rest ih =>
    intro ks c h hnd hops
    obtain ⟨now, k, v, t⟩ := o
    simp only [List.map_cons] at hnd ⊢
    have hnd2 : (ks ++ [k] ++ rest.map (fun o => o.2.1)).Nodup := by
      rw [List.append_assoc]
      simpa using hnd
    have hksnd : ks.Nodup := ((List.nodup_append.1 hnd).1)
    have hknew : k ∉ ks := by
      intro hkm
      exact (List.nodup_append.1 hnd).2.2 hkm (List.mem_cons_self _ _)
    have hko := hops (now, k, v, t) (List.mem_cons_self _ _)
    have hstep : PutRep (ks ++ [k]) (Put c false now k v t).2 :=
      putRep_step h hksnd now hko.1 hknew v hko.2
    have hrun := ih (ks ++ [k]) (Put c false now k v t).2 hstep hnd2
      (fun o ho => hops o (List.mem_cons_of_mem _ ho))
    rw [runPuts]
    rw [List.append_assoc] at hrun
    simpa using hrun

theorem capacity_runPuts {α : Type} :
    ∀ (ops : List (Int × String × α × Int)) (c : LRUCache α),
      (runPuts c ops).capacity = c.capacity := by
  intro ops
  induction ops with
  | nil => intro c; rfl
  | cons o rest ih =>
    intro c
    obtain ⟨now, k, v, t⟩ := o
    rw [runPuts, ih, capacity_Put]

/-- C1: the claim says that, starting from a cache of positive capacity, no
sequence of Put, Get, GetAll, Evict, EvictAll calls can leave more keys in
the index than the capacity.  The code violates it: the trace c1Trace has
capacity 2 and ends, after five calls, with 3 keys in the index.  The
expired-key path of Get deletes a key from the index while leaving its node
in the recency list; a later Put at capacity then evicts that zombie tail,
which no longer shrinks the index, and inserts on top. -/
theorem c1_capacity_breach :
    c1Trace.capacity = 2 ∧ c1Trace.cache.length = 3 := by decide

/-- C2 (counterexample): after storing key a with TTL 1 at time 0 and then
calling Get on it at time 5, the index holds 0 keys while the recency list
still holds 1 node, refuting the claim that the two counts agree before and
after every operation. -/
theorem c2_counterexample :
    c2State.cache.length = 0 ∧ c2State.list.length = 1 ∧
      c2State.cache.length ≠ c2State.list.length := by decide

/-- C2 (amended): on every fully synchronised state (CacheSync, which holds
for the freshly constructed cache and is preserved from it until the first
expired-key Get), the number of keys in the index equals the number of nodes
in the recency list, and Put, GetAll, Evict and EvictAll each preserve full
synchronisation, hence also that equality.  Get either leaves the state
untouched, or, exactly on the expired-key branch, removes one key from the
index while leaving the recency list unchanged, after which the list holds
one more node than the index. -/
theorem c2_sync_invariant {α : Type} (c : LRUCache α) (h : CacheSync c) :
    c.cache.length = c.list.length ∧
    (∀ cl now k v t, CacheSync (Put c cl now k v t).2 ∧
      (Put c cl now k v t).2.cache.length = (Put c cl now k v t).2.list.length) ∧
    (∀ ca now, CacheSync (GetAll c ca now).2 ∧
      (GetAll c ca now).2.cache.length = (GetAll c ca now).2.list.length) ∧
    (∀ cl k, CacheSync (Evict c cl k).2 ∧
      (Evict c cl k).2.cache.length = (Evict c cl k).2.list.length) ∧
    (∀ cl, CacheSync (EvictAll c cl).2 ∧
      (EvictAll c cl).2.cache.length = (EvictAll c cl).2.list.length) ∧
    (∀ cl now k, (Get c cl now k).2 = c ∨
      ((Get c cl now k).2.list = c.list ∧
        (Get c cl now k).2.cache.length + 1 = c.cache.length)) := by
  refine ⟨sync_length h, ?_, ?_, ?_, ?_, ?_⟩
  · intro cl now k v t
    have hs := sync_Put h cl now k v t
    exact ⟨hs, sync_length hs⟩
  · intro ca now
    have hs := sync_GetAll h ca now
    exact ⟨hs, sync_length hs⟩
  · intro cl k
    have hs := sync_Evict h cl k
    exact ⟨hs, sync_length hs⟩
  · intro cl
    have hs := sync_EvictAll h cl
    exact ⟨hs, sync_length hs⟩
  · intro cl now k
    exact get_state_cases h cl now k

/-- Witness for c2_sync_invariant: a concrete synchronised two-entry cache
on which a further Put keeps index size equal to list length. -/
theorem c2_sync_invariant_witness :
    (Put ((Put (NewLRUCache 2 100 : LRUCache Nat) false 0 "a" 5 7).2)
        false 1 "b" 6 8).2.cache.length =
      (Put ((Put (NewLRUCache 2 100 : LRUCache Nat) false 0 "a" 5 7).2)
        false 1 "b" 6 8).2.list.length := by
  have h : CacheSync ((Put (NewLRUCache 2 100 : LRUCache Nat) false 0 "a" 5 7).2) := by
    decide
  exact ((c2_sync_invariant _ h).2.1 false 1 "b" 6 8).2

/-- C3: for put-only runs with distinct non-empty keys, non-negative TTLs and
positive capacity, the state after every prefix of the run holds exactly the
most recently stored keys, newest first, truncated to capacity, in both the
recency list and the index; hence every insertion that overflows capacity
evicts exactly the least recently stored entry.  Reads never reorder: the
second clause shows any Get leaves any recency list unchanged.  The last
clause checks concrete scenario A: capacity 2, store a, b, c, then GetAll
returns keys c, b (most recent first) and a is gone from the index. -/
theorem c3_lru_by_write {α : Type} (ops : List (Int × String × α × Int))
    (hnd : (ops.map (fun o => o.2.1)).Nodup)
    (hok : ∀ o ∈ ops, o.2.1 ≠ "" ∧ 0 ≤ o.2.2.2)
    (cap dttl : Int) (hcap : 0 < cap) :
    (∀ n : Nat,
      (runPuts (NewLRUCache cap dttl : LRUCache α) (ops.take n)).list.map Node.key =
        ((ops.take n).map (fun o => o.2.1)).reverse.take cap.toNat ∧
      (runPuts (NewLRUCache cap dttl : LRUCache α) (ops.take n)).cache.map Prod.fst =
        ((ops.take n).map (fun o => o.2.1)).reverse.take cap.toNat) ∧
    (∀ (d : LRUCache α) (cl : Bool) (now2 : Int) (k2 : String),
      (Get d cl now2 k2).2.list = d.list) ∧
    ((GetAll c3Scenario none 1).1 = Except.ok (["c", "b"], [3, 2]) ∧
      mapGet "a" c3Scenario.cache = none) := by
  refine ⟨?_, fun d cl now2 k2 => get_list_unchanged d cl now2 k2, by decide⟩
  intro n
  have hrep : PutRep [] (NewLRUCache cap dttl : LRUCache α) := by
    refine ⟨hcap, by simp [NewLRUCache], rfl, List.nodup_nil,
      fun m hm => absurd hm (List.not_mem_nil m)⟩
  have hrun := putRep_run (ops.take n) [] _ hrep
    (by simpa using (hnd.sublist ((List.take_sublist n ops).map _)))
    (fun o ho => hok o ((List.take_sublist n ops).subset ho))
  simp only [List.nil_append] at hrun
  obtain ⟨_, hkeys2, hcache2, _, _⟩ := hrun
  rw [capacity_runPuts] at hkeys2
  have hk1 : (runPuts (NewLRUCache cap dttl : LRUCache α) (ops.take n)).list.map Node.key =
      ((ops.take n).map (fun o => o.2.1)).reverse.take cap.toNat := hkeys2
  refine ⟨hk1, ?_⟩
  rw [keys_of_cache_rep hcache2]
  exact hk1

/-- Witness for c3_lru_by_write: the distinct-key run a, b, c on a cache of
capacity 2 ends with recency list keys c, b. -/
theorem c3_lru_by_write_witness :
    (runPuts (NewLRUCache 2 1000 : LRUCache Nat)
      [(0, "a", 1, 100), (0, "b", 2, 100), (0, "c", 3, 100)]).list.map Node.key =
      ["c", "b"] := by
  have h := (c3_lru_by_write [(0, "a", 1, 100), (0, "b", 2, 100), (0, "c", 3, 100)]
    (by decide) (by decide) 2 1000 (by decide)).1 3
  exact h.1

/-- C4: contract of Get, on any state satisfying the structural invariant
(all reachable states do).  An empty key fails with errEmptyKey; an absent
key fails with errKeyNotFound; both leave the state unchanged.  A present
key resolves to a linked node; if the current instant is past its expiry the
key is deleted from the index, the call fails with errExpiredKey, and every
later Get of the key (with no intervening Put) fails with errKeyNotFound;
otherwise Get returns the stored value with its expiry instant and leaves
the whole state, in particular the recency list, unchanged (no promotion to
the head). -/
theorem c4_get_contract {α : Type} (c : LRUCache α) (h : CacheInv c) (now : Int)
    (k : String) (hk : k ≠ "") :
    (Get c false now "" = (.error .errEmptyKey, c)) ∧
    (mapGet k c.cache = none → Get c false now k = (.error .errKeyNotFound, c)) ∧
    (∀ v, mapGet k c.cache = some v →
      ∃ i n, v = some i ∧ findNode i c.list = some n ∧
        (now > n.TTL →
          Get c false now k = (.error .errExpiredKey, { c with cache := mapDel k c.cache }) ∧
          ∀ now2, Get { c with cache := mapDel k c.cache } false now2 k =
            (.error .errKeyNotFound, { c with cache := mapDel k c.cache })) ∧
        (¬ now > n.TTL → Get c false now k = (.ok (n.value, n.TTL), c))) := by
  refine ⟨rfl, ?_, ?_⟩
  · intro hnone
    simp only [Get]
    rw [if_neg (by simp), if_neg hk]
    simp only [hnone]
  · intro v hv
    obtain ⟨i, n, hvi, hfind, hkey, hmemN⟩ := inv_lookup h hv
    subst hvi
    refine ⟨i, n, rfl, hfind, ?_, ?_⟩
    · intro hexp
      constructor
      · simp only [Get]
        rw [if_neg (by simp), if_neg hk]
        simp only [hv, hfind]
        rw [if_pos hexp]
      · intro now2
        simp only [Get]
        rw [if_neg (by simp), if_neg hk]
        have hnone : mapGet k ({ c with cache := mapDel k c.cache } : LRUCache α).cache =
            none := mapGet_mapDel_self k c.cache
        simp only [hnone]
    · intro hfresh
      simp only [Get]
      rw [if_neg (by simp), if_neg hk]
      simp only [hv, hfind]
      rw [if_neg hfresh]

/-- Witness for c4_get_contract: on the freshly constructed cache the absent
key a yields errKeyNotFound and the state is untouched. -/
theorem c4_get_contract_witness :
    Get (NewLRUCache 2 100 : LRUCache Nat) false 0 "a" =
      (Except.error CacheErr.errKeyNotFound, NewLRUCache 2 100) :=
  (c4_get_contract (NewLRUCache 2 100 : LRUCache Nat) (by decide) 0 "a"
    (by decide)).2.1 (by decide)

/-- C5: Put of an existing key k (any invariant-satisfying state whose index
holds k) succeeds, overwrites the value, sets the expiry to now plus the
effective TTL (getTTL substitutes defaultTTL for a zero TTL), moves the
entry node to the head of the recency list, and leaves the index, hence the
occupancy, unchanged. -/
theorem c5_put_overwrite {α : Type} (c : LRUCache α) (h : CacheInv c) (now : Int)
    (k : String) (v : α) (ttl : Int) (hk : k ≠ "") (ht : 0 ≤ ttl) (w : Option Nat)
    (hmem : mapGet k c.cache = some w) :
    ∃ i n, w = some i ∧ findNode i c.list = some n ∧ n.key = k ∧
      Put c false now k v ttl =
        (.ok (), { c with
          list := { n with value := v, TTL := now + getTTL c ttl } :: removeNode i c.list }) ∧
      (Put c false now k v ttl).2.cache = c.cache ∧
      (Put c false now k v ttl).2.cache.length = c.cache.length := by
  obtain ⟨i, n, hvi, hfind, hkey, hmemN⟩ := inv_lookup h hmem
  subst hvi
  have heq : Put c false now k v ttl = (.ok (), { c with
      list := { n with value := v, TTL := now + getTTL c ttl } :: removeNode i c.list }) := by
    simp only [Put]
    rw [if_neg (by simp), if_neg hk, if_neg (by omega)]
    simp only [hmem, hfind]
  exact ⟨i, n, rfl, hfind, hkey, heq, by rw [heq], by rw [heq]⟩

/-- Witness for c5_put_overwrite: overwriting key a of the one-entry cache
with value 9 and TTL 0 (so the default TTL 100 applies) at time 3. -/
theorem c5_put_overwrite_witness :
    ∃ i n, (some 0 : Option Nat) = some i ∧
      findNode i oneEntryCache.list = some n ∧ n.key = "a" ∧
      Put oneEntryCache false 3 "a" 9 0 =
        (.ok (), { oneEntryCache with
          list := { n with value := 9, TTL := 3 + getTTL oneEntryCache 0 } ::
            removeNode i oneEntryCache.list }) ∧
      (Put oneEntryCache false 3 "a" 9 0).2.cache = oneEntryCache.cache ∧
      (Put oneEntryCache false 3 "a" 9 0).2.cache.length = oneEntryCache.cache.length :=
  c5_put_overwrite oneEntryCache (by decide) 3 "a" 9 0 (by decide) (by decide)
    (some 0) (by decide)

/-- C6: on any invariant-satisfying state whose index binds k to a linked
node that is not yet expired, Evict succeeds, returns exactly the stored
value, and removes the entry from both the index and the recency list; a
second Evict of k on the resulting state fails with errKeyNotFound and
changes nothing. -/
theorem c6_evict_roundtrip {α : Type} (c : LRUCache α) (h : CacheInv c) (k : String)
    (hk : k ≠ "") (i : Nat) (hmem : mapGet k c.cache = some (some i)) (n : Node α)
    (hfind : findNode i c.list = some n) (now : Int) (hfresh : ¬ now > n.TTL) :
    Evict c false k =
      (.ok n.value, { c with cache := mapDel k c.cache, list := removeNode i c.list }) ∧
    Evict { c with cache := mapDel k c.cache, list := removeNode i c.list } false k =
      (.error .errKeyNotFound,
        { c with cache := mapDel k c.cache, list := removeNode i c.list }) := by
  constructor
  · simp only [Evict]
    rw [if_neg (by simp), if_neg hk]
    simp only [hmem, hfind]
  · simp only [Evict]
    rw [if_neg (by simp), if_neg hk]
    have hnone :
        mapGet k ({ c with cache := mapDel k c.cache, list := removeNode i c.list } :
          LRUCache α).cache = none :=
      mapGet_mapDel_self k c.cache
    simp only [hnone]

/-- Witness for c6_evict_roundtrip on the one-entry cache: evicting a
returns its value 7, and a second eviction of a is errKeyNotFound. -/
theorem c6_evict_roundtrip_witness :
    Evict oneEntryCache false "a" =
      (Except.ok 7,
        { oneEntryCache with
            cache := mapDel "a" oneEntryCache.cache,
            list := removeNode 0 oneEntryCache.list }) ∧
    Evict
      { oneEntryCache with
          cache := mapDel "a" oneEntryCache.cache,
          list := removeNode 0 oneEntryCache.list } false "a" =
      (Except.error CacheErr.errKeyNotFound,
        { oneEntryCache with
            cache := mapDel "a" oneEntryCache.cache,
            list := removeNode 0 oneEntryCache.list }) :=
  c6_evict_roundtrip oneEntryCache (by decide) "a" (by decide) 0 (by decide)
    ⟨0, "a", 7, 5⟩ (by decide) 1 (by decide)

/-- C7: EvictAll fails with errEmptyCache exactly when the index holds no
keys, and otherwise clears both the index and the recency list; afterwards
Get of any (non-empty) key fails with errKeyNotFound and GetAll fails with
errEmptyCache, neither changing the cleared state. -/
theorem c7_evictAll_contract {α : Type} (c : LRUCache α) (now : Int) (k : String)
    (hk : k ≠ "") :
    (c.cache.length = 0 → EvictAll c false = (.error .errEmptyCache, c)) ∧
    (c.cache.length ≠ 0 →
      EvictAll c false = (.ok (), ({ c with cache := [], list := [] } : LRUCache α)) ∧
      Get ({ c with cache := [], list := [] } : LRUCache α) false now k =
        (.error .errKeyNotFound, { c with cache := [], list := [] }) ∧
      GetAll ({ c with cache := [], list := [] } : LRUCache α) none now =
        (.error .errEmptyCache, { c with cache := [], list := [] })) := by
  constructor
  · intro h0
    simp only [EvictAll]
    rw [if_neg (by simp), if_pos h0]
  · intro h0
    refine ⟨?_, ?_, ?_⟩
    · simp only [EvictAll]
      rw [if_neg (by simp), if_neg h0]
    · simp only [Get]
      rw [if_neg (by simp), if_neg hk]
      have hnone :
          mapGet k ({ c with cache := [], list := [] } : LRUCache α).cache = none := rfl
      simp only [hnone]
    · rfl

/-- Witness for c7_evictAll_contract: clearing the one-entry cache succeeds
and empties both structures. -/
theorem c7_evictAll_contract_witness :
    EvictAll oneEntryCache false =
      (Except.ok (), { oneEntryCache with cache := [], list := [] }) :=
  ((c7_evictAll_contract oneEntryCache 0 "b" (by decide)).2 (by decide)).1

/-- C8: an already-cancelled context makes every operation return the
cancellation error with the state completely unchanged; for GetAll, a
context observed cancelled at any poll during the traversal (poll j with 1
at most j at most list length) also yields the cancellation error, and since
the error constructor carries no data there is no partial key/value result. -/
theorem c8_cancellation {α : Type} (c : LRUCache α) (now : Int) (k : String) (v : α)
    (ttl : Int) (j : Nat) :
    Put c true now k v ttl = (.error .ctxCancelled, c) ∧
    Get c true now k = (.error .ctxCancelled, c) ∧
    Evict c true k = (.error .ctxCancelled, c) ∧
    EvictAll c true = (.error .ctxCancelled, c) ∧
    GetAll c (some 0) now = (.error .ctxCancelled, c) ∧
    (c.cache.length ≠ 0 → 1 ≤ j → j ≤ c.list.length →
      (GetAll c (some j) now).1 = .error .ctxCancelled) := by
  refine ⟨rfl, rfl, rfl, rfl, rfl, ?_⟩
  intro hne h1 h2
  simp only [GetAll]
  rw [if_neg (by simp [ctxDone]; omega)]
  rw [if_neg hne]
  exact getAllLoop_cancelled now j c.list 1 c [] [] h1 (by omega)

/-- Witness for c8_cancellation: a cancelled Put on the one-entry cache is
rejected without any change, and a GetAll cancelled at poll 1 fails with the
cancellation error. -/
theorem c8_cancellation_witness :
    Put oneEntryCache true 0 "b" 1 5 = (Except.error CacheErr.ctxCancelled, oneEntryCache) ∧
    (GetAll oneEntryCache (some 1) 0).1 = Except.error CacheErr.ctxCancelled := by
  have h := c8_cancellation oneEntryCache 0 "b" 1 5 1
  exact ⟨h.1, h.2.2.2.2.2 (by decide) (by decide) (by decide)⟩

/-- C9: in every reachable state each index binding holds a non-nil node
pointer, and consequently neither Get nor Evict can return the nil-node
consistency error (nor hit the nil dereference that the model records as
nilDeref): their errNilNode branches are dead on reachable states. -/
theorem c9_no_nil_nodes {α : Type} (c : LRUCache α) (h : CacheReachable c) :
    (∀ p ∈ c.cache, ∃ i, p.2 = some i) ∧
    (∀ cl now k, (Get c cl now k).1 ≠ .error .errNilNode ∧
      (Get c cl now k).1 ≠ .error .nilDeref) ∧
    (∀ cl k, (Evict c cl k).1 ≠ .error .errNilNode ∧
      (Evict c cl k).1 ≠ .error .nilDeref) := by
  have hinv := reachable_inv h
  refine ⟨?_, ?_, ?_⟩
  · intro p hp
    obtain ⟨n, _, hp2, _⟩ := hinv.2.1 p hp
    exact ⟨n.id, hp2⟩
  · intro cl now k
    unfold Get
    split
    · exact ⟨error_ne (by decide), error_ne (by decide)⟩
    split
    · exact ⟨error_ne (by decide), error_ne (by decide)⟩
    split
    · exact ⟨error_ne (by decide), error_ne (by decide)⟩
    · rename_i hget
      exfalso
      obtain ⟨m, _, hp2, _⟩ := hinv.2.1 (k, none) (mapGet_some_mem hget)
      exact Option.noConfusion hp2
    · rename_i i hget
      split
      · rename_i hfindN
        exfalso
        obtain ⟨i2, n2, hv, hfind2, _, _⟩ := inv_lookup hinv hget
        have hi : i2 = i := by injection hv with hv2; exact hv2.symm
        rw [hi] at hfind2
        rw [hfind2] at hfindN
        exact Option.noConfusion hfindN
      · split
        · exact ⟨error_ne (by decide), error_ne (by decide)⟩
        · exact ⟨ok_ne_error _ _, ok_ne_error _ _⟩
  · intro cl k
    unfold Evict
    split
    · exact ⟨error_ne (by decide), error_ne (by decide)⟩
    split
    · exact ⟨error_ne (by decide), error_ne (by decide)⟩
    split
    · exact ⟨error_ne (by decide), error_ne (by decide)⟩
    · rename_i hget
      exfalso
      obtain ⟨m, _, hp2, _⟩ := hinv.2.1 (k, none) (mapGet_some_mem hget)
      exact Option.noConfusion hp2
    · rename_i i hget
      split
      · rename_i hfindN
        exfalso
        obtain ⟨i2, n2, hv, hfind2, _, _⟩ := inv_lookup hinv hget
        have hi : i2 = i := by injection hv with hv2; exact hv2.symm
        rw [hi] at hfind2
        rw [hfind2] at hfindN
        exact Option.noConfusion hfindN
      · exact ⟨ok_ne_error _ _, ok_ne_error _ _⟩

/-- Witness for c9_no_nil_nodes: Get on the freshly constructed (reachable)
cache cannot return the nil-node error. -/
theorem c9_no_nil_nodes_witness :
    (Get (NewLRUCache 2 5 : LRUCache Nat) false 0 "x").1 ≠
      Except.error CacheErr.errNilNode :=
  ((c9_no_nil_nodes (NewLRUCache 2 5 : LRUCache Nat) (CacheReachable.init 2 5)).2.1
    false 0 "x").1

/-- C10: a cache constructed with non-positive capacity can never hold an
entry: every reachable such state has empty index and empty list, and every
Put of a new non-empty key with non-negative TTL fails with errNilNode and
stores nothing (the map is already at the non-positive capacity bound and
the list has no tail to evict). -/
theorem c10_nonpositive_capacity {α : Type} (c : LRUCache α) (h : CacheReachable c)
    (hcap : c.capacity ≤ 0) :
    c.cache = [] ∧ c.list = [] ∧
    ∀ now k (v : α) ttl, k ≠ "" → 0 ≤ ttl →
      Put c false now k v ttl = (.error .errNilNode, c) := by
  obtain ⟨hc, hl⟩ := reach_nonpos_empty h hcap
  exact ⟨hc, hl, fun now k v ttl hk ht => put_nonpos_result hc hl hcap now k v ttl hk ht⟩

/-- Witness for c10_nonpositive_capacity: on a fresh capacity-zero cache,
storing key a fails with errNilNode and leaves the cache untouched. -/
theorem c10_nonpositive_capacity_witness :
    Put (NewLRUCache 0 5 : LRUCache Nat) false 0 "a" 7 0 =
      (Except.error CacheErr.errNilNode, NewLRUCache 0 5) :=
  (c10_nonpositive_capacity (NewLRUCache 0 5 : LRUCache Nat) (CacheReachable.init 0 5)
    (by decide)).2.2 0 "a" 7 0 (by decide) (by decide)
